import Mathlib

/-!
Verification of the server discovery and liveness-probing subsystem of
`mbupdater.py` (MBII community updater).  The definitions below are a
shallow embedding of the Python source: `ping_server`, `QUERY_PACKET`,
the address-parsing and probe-collection loops of
`ServerBrowser._fetch_servers_thread`, `ServerBrowser._sanitize_string`,
the mod filter of `ServerBrowser.display_servers`, and the column sort of
`ServerBrowser.sort_column`.
-/

/-! ## Python rounding

`round()` in Python rounds to the nearest integer, ties to even
(banker's rounding).  We model the float arithmetic of
`round((end_time - start_time) * 1000)` over the rationals. -/

/-- Python's built-in `round` to an integer: nearest integer, ties to even. -/
def pythonRound (q : ℚ) : ℤ :=
  let f := Rat.floor q
  let r := q - (f : ℚ)
  if r < 1/2 then f
  else if 1/2 < r then f + 1
  else if f % 2 = 0 then f else f + 1

theorem ratFloor_cast_le (q : ℚ) : (Rat.floor q : ℚ) ≤ q :=
  Rat.le_floor.mp le_rfl

theorem ratFloor_nonneg {q : ℚ} (h : 0 ≤ q) : 0 ≤ Rat.floor q :=
  Rat.le_floor.mpr (by exact_mod_cast h)

theorem pythonRound_nonneg {q : ℚ} (h : 0 ≤ q) : 0 ≤ pythonRound q := by
  have hf : 0 ≤ Rat.floor q := ratFloor_nonneg h
  unfold pythonRound
  dsimp only
  split
  · exact hf
  · split
    · omega
    · split
      · exact hf
      · omega

theorem pythonRound_le_of_le {q : ℚ} {B : ℤ} (h : q ≤ (B : ℚ)) :
    pythonRound q ≤ B := by
  have hfB : Rat.floor q ≤ B := by
    exact_mod_cast Rat.le_floor.mpr (le_trans (ratFloor_cast_le q) h) |>.trans_eq rfl
  unfold pythonRound
  dsimp only
  split
  · exact hfB
  · rename_i hlt
    push_neg at hlt
    have hstrict : Rat.floor q < B := by
      by_contra hcon
      push_neg at hcon
      have hEq : Rat.floor q = B := le_antisymm hfB hcon
      have h2 : q - (Rat.floor q : ℚ) ≥ 1/2 := hlt
      have : (B : ℚ) + 1/2 ≤ q := by
        rw [← hEq]
        linarith
      linarith
    split
    · omega
    · split
      · omega
      · omega

/-! ## ServerQueryClient: `ping_server`

The source (`mbupdater.py:138`) opens a UDP socket, sends `QUERY_PACKET`,
waits for any response datagram, and returns `round(elapsed * 1000)`;
`socket.timeout` yields `999` and any other exception yields `-1`.
A `NetBehavior` value records what the network/OS did during one call:
the socket or send call raising, the receive timing out, the receive
raising some other error, or a reply arriving after `elapsed` seconds. -/

/-- Default timeout of `ping_server` (`timeout=0.3` seconds in the source). -/
def PING_TIMEOUT_DEFAULT : ℚ := 3/10

/-- What the network and OS did during one `ping_server` call. -/
inductive NetBehavior where
  | socketFail : NetBehavior
  | sendFail : NetBehavior
  | recvTimeout : NetBehavior
  | recvFail : NetBehavior
  | reply (elapsed : ℚ) : NetBehavior
deriving DecidableEq

/-- The 14-byte UDP query payload `b'\xff\xff\xff\xffgetstatus\n'`
(`mbupdater.py:136`), as a list of byte values. -/
def QUERY_PACKET : List Nat := [0xff, 0xff, 0xff, 0xff] ++ ("getstatus\n".data.map Char.toNat)

/-- Shallow embedding of `ping_server` (`mbupdater.py:138-168`): on a reply
after `elapsed` seconds it returns `round(elapsed * 1000)`; on
`socket.timeout` it returns `999`; every other exception is caught and
mapped to `-1`.  Totality of this function reflects that the Python
function catches every exception and always returns an integer. -/
def ping_server : NetBehavior → ℤ
  | .reply elapsed => pythonRound (elapsed * 1000)
  | .recvTimeout => 999
  | .socketFail => -1
  | .sendFail => -1
  | .recvFail => -1

/-- The payloads actually handed to `sock.sendto` during one `ping_server`
call: nothing if the socket could not be created or the send itself raised,
otherwise exactly one copy of `QUERY_PACKET`. -/
def sentPayloads : NetBehavior → List (List Nat)
  | .socketFail => []
  | .sendFail => []
  | _ => [QUERY_PACKET]

/-- Decoding of a `ping_server` result by the collection loop of
`_fetch_servers_thread` (`mbupdater.py:1718-1723`): `-1` becomes
`'Error'`, `999` becomes `'Timeout'`, anything else is stringified. -/
def decodePing (v : ℤ) : String :=
  if v = -1 then "Error" else if v = 999 then "Timeout" else toString v

/-- Claim C2: every `ping_server` call returns exactly one of three
outcomes — on a reply, the elapsed time in milliseconds rounded to the
nearest integer (non-negative when the elapsed time is non-negative); on
a receive timeout, the sentinel `999`; on any other socket/OS failure,
the sentinel `-1`.  The function is total over all network behaviors, so
no exception propagates to the caller. -/
theorem ping_server_three_outcomes (t : ℚ) (h0 : 0 ≤ t) :
    ping_server (.reply t) = pythonRound (t * 1000) ∧
    0 ≤ ping_server (.reply t) ∧
    ping_server .recvTimeout = 999 ∧
    ping_server .socketFail = -1 ∧
    ping_server .sendFail = -1 ∧
    ping_server .recvFail = -1 := by
  refine ⟨rfl, ?_, rfl, rfl, rfl, rfl⟩
  show 0 ≤ pythonRound (t * 1000)
  exact pythonRound_nonneg (by positivity)

theorem ping_server_three_outcomes_witness :
    0 ≤ (7/4 : ℚ) ∧ 0 ≤ ping_server (.reply (7/4)) :=
  ⟨by norm_num, (ping_server_three_outcomes (7/4) (by norm_num)).2.1⟩

/-- Claim C8 counterexample: the fixed query payload is 14 bytes long
(four `0xFF` bytes plus the ten ASCII characters of `getstatus\n`), not
13 bytes as claimed. -/
theorem query_packet_not_thirteen_bytes :
    QUERY_PACKET.length = 14 ∧ QUERY_PACKET.length ≠ 13 := by
  constructor <;> decide

/-- Claim C8 (amended): every probe sends a fixed 14-byte out-of-band
query payload — four `0xFF` bytes followed by the ASCII bytes of
`getstatus\n` — as a single datagram; no behavior of the network makes
`ping_server` send anything else or send it twice. -/
theorem query_packet_single_datagram :
    QUERY_PACKET.take 4 = [0xff, 0xff, 0xff, 0xff] ∧
    QUERY_PACKET.drop 4 = [103, 101, 116, 115, 116, 97, 116, 117, 115, 10] ∧
    QUERY_PACKET.length = 14 ∧
    ∀ net : NetBehavior, sentPayloads net = [] ∨ sentPayloads net = [QUERY_PACKET] := by
  refine ⟨by decide, by decide, by decide, ?_⟩
  intro net
  cases net with
  | socketFail => exact Or.inl rfl
  | sendFail => exact Or.inl rfl
  | recvTimeout => exact Or.inr rfl
  | recvFail => exact Or.inr rfl
  | reply t => exact Or.inr rfl

/-- Claim C10: the sentinels `-1` (Error) and `999` (Timeout) are encoded
in-band among genuine latencies, but under the default 0.3-second timeout
a genuine reply's rounded latency lies in `[0, 999)`, so the collection
loop's decoding never misclassifies a genuine response as a sentinel; the
sentinels themselves decode to `'Error'` and `'Timeout'`. -/
theorem sentinel_decoding_sound (t : ℚ) (h0 : 0 ≤ t) (ht : t ≤ PING_TIMEOUT_DEFAULT) :
    decodePing (ping_server (.reply t)) = toString (pythonRound (t * 1000)) ∧
    0 ≤ pythonRound (t * 1000) ∧ pythonRound (t * 1000) < 999 ∧
    decodePing (ping_server .recvTimeout) = "Timeout" ∧
    decodePing (ping_server .socketFail) = "Error" ∧
    decodePing (ping_server .recvFail) = "Error" := by
  have hnn : 0 ≤ pythonRound (t * 1000) := pythonRound_nonneg (by positivity)
  have hub : pythonRound (t * 1000) ≤ 300 := by
    apply pythonRound_le_of_le
    have : t * 1000 ≤ (3/10 : ℚ) * 1000 := by
      have h1000 : (0 : ℚ) ≤ 1000 := by norm_num
      exact mul_le_mul_of_nonneg_right ht h1000
    calc t * 1000 ≤ (3/10 : ℚ) * 1000 := this
      _ = ((300 : ℤ) : ℚ) := by norm_num
  refine ⟨?_, hnn, by omega, rfl, rfl, rfl⟩
  show decodePing (pythonRound (t * 1000)) = toString (pythonRound (t * 1000))
  unfold decodePing
  rw [if_neg (by omega), if_neg (by omega)]

theorem sentinel_decoding_sound_witness :
    0 ≤ (1/4 : ℚ) ∧ (1/4 : ℚ) ≤ PING_TIMEOUT_DEFAULT ∧
      pythonRound ((1/4 : ℚ) * 1000) < 999 :=
  ⟨by norm_num, by norm_num [PING_TIMEOUT_DEFAULT],
    (sentinel_decoding_sound (1/4) (by norm_num)
      (by norm_num [PING_TIMEOUT_DEFAULT])).2.2.1⟩

/-! ## Address parsing and the probe phase

`ServerBrowser._fetch_servers_thread` (`mbupdater.py:1686-1729`) walks the
scraped records: if the address contains a colon it is `rsplit` at the
last colon and the port parsed with `int()` — a `ValueError` marks the
record `'Parse Error'` and skips it; then `if ip and port:` dispatches a
`ping_server` task, else the record is marked `'Invalid Addr'`.  The
collection loop maps each future's result (or exception) onto its own
record. -/

/-- ASCII whitespace recognized by Python's `str.split()` / `str.strip()` /
`int()` stripping (modelled for the ASCII range). -/
def isPyWs (c : Char) : Bool :=
  c == ' ' || c == '\t' || c == '\n' || c == '\r' || c == Char.ofNat 0x0B || c == Char.ofNat 0x0C

/-- Strip leading and trailing whitespace, as Python's `str.strip()`. -/
def pyStripWs (l : List Char) : List Char :=
  ((l.dropWhile isPyWs).reverse.dropWhile isPyWs).reverse

def isAsciiDigit (c : Char) : Bool := '0' ≤ c && c ≤ '9'

def digitVal (c : Char) : ℕ := c.toNat - '0'.toNat

def natOfDigits (l : List Char) : ℕ :=
  l.foldl (fun a c => 10 * a + digitVal c) 0

/-- Continuation of a digit run in a Python integer literal: digits, with
each underscore followed by a digit. -/
def digitsTail : List Char → Bool
  | [] => true
  | c :: cs =>
    if isAsciiDigit c then digitsTail cs
    else if c == '_' then
      match cs with
      | c' :: cs' => isAsciiDigit c' && digitsTail cs'
      | [] => false
    else false

/-- Body of a Python integer literal after the optional sign: a nonempty
digit run with single underscores between digits. -/
def digitsBody : List Char → Bool
  | [] => false
  | c :: cs => isAsciiDigit c && digitsTail cs

/-- Python's `int()` on a string (modelled for ASCII-decimal inputs):
surrounding whitespace is stripped, one optional sign is allowed, and the
rest must be a digit run with single underscores between digits; any
other input raises `ValueError`, modelled as `none`. -/
def pyInt (s : List Char) : Option ℤ :=
  match pyStripWs s with
  | '+' :: rest => if digitsBody rest then some (natOfDigits (rest.filter isAsciiDigit)) else none
  | '-' :: rest => if digitsBody rest then some (-(natOfDigits (rest.filter isAsciiDigit) : ℤ)) else none
  | rest => if digitsBody rest then some (natOfDigits (rest.filter isAsciiDigit)) else none

/-- Python's `addr.rsplit(':', 1)` when `addr` contains a colon: the part
before the last colon and the part after it. -/
def rsplitColon (l : List Char) : List Char × List Char :=
  let portRev := l.reverse.takeWhile (fun c => !(c == ':'))
  (l.take (l.length - portRev.length - 1), portRev.reverse)

/-- One scraped server record, as built by `scrape_jkhub_servers`
(`mbupdater.py:276-285`): the dict keys become fields, `ping` starts at
`'Pinging...'`. -/
structure Server where
  hostname : String
  addr : String
  mapname : String
  clients : String
  mod : String
  gametype : String
  ping : String
  passworded : Bool
deriving DecidableEq

/-- How the submission loop classifies one record's address. -/
inductive AddrKind where
  | parseErr : AddrKind
  | invalidAddr : AddrKind
  | dispatch (ip : List Char) (port : ℤ) : AddrKind
deriving DecidableEq

/-- The address handling of the submission loop (`mbupdater.py:1690-1709`):
with a colon present, `rsplit` at the last colon and `int()` the port —
failure is `'Parse Error'`; then `if ip and port:` (nonempty host string
and nonzero port) dispatches a probe, anything else is `'Invalid Addr'`. -/
def classifyAddr (addr : List Char) : AddrKind :=
  if addr.contains ':' then
    match pyInt (rsplitColon addr).2 with
    | none => .parseErr
    | some p => if (rsplitColon addr).1 ≠ [] ∧ p ≠ 0 then .dispatch (rsplitColon addr).1 p else .invalidAddr
  else .invalidAddr

/-- The outcome of one probe future as seen by `future.result()`: a value
returned by `ping_server`, or an exception raised inside the task. -/
inductive TaskOutcome where
  | ok (v : ℤ) : TaskOutcome
  | exn : TaskOutcome
deriving DecidableEq

/-- The collection loop's handling of one future (`mbupdater.py:1712-1727`):
a returned value is decoded, an exception caught at the task boundary
becomes `'Error'`. -/
def settlePing : TaskOutcome → String
  | .ok v => decodePing v
  | .exn => "Error"

/-- The complete per-record effect of one refresh cycle's probe phase:
classification, then either the pre-probe failure status or the decoded
outcome of the record's own future.  `oracle` gives each dispatched
record's future outcome. -/
def settleRecord (oracle : Server → TaskOutcome) (s : Server) : Server :=
  match classifyAddr s.addr.data with
  | .parseErr => { s with ping := "Parse Error" }
  | .invalidAddr => { s with ping := "Invalid Addr" }
  | .dispatch _ _ => { s with ping := settlePing (oracle s) }

/-- The probe phase over a scraped record list: each record's final state
depends only on its own classification and its own future's outcome, so
the submission/collection loops amount to this map. -/
def probePhase (oracle : Server → TaskOutcome) (servers : List Server) : List Server :=
  servers.map (settleRecord oracle)

def isDispatched : AddrKind → Bool
  | .dispatch _ _ => true
  | _ => false

/-- The records for which `executor.submit(ping_server, ip, port)` is
called — exactly those whose address classifies as `dispatch`. -/
def dispatchedRecords (servers : List Server) : List Server :=
  servers.filter (fun s => isDispatched (classifyAddr s.addr.data))

/-- A concrete record as the scraper would produce it, with the given
address. -/
def sampleServer (a : String) : Server :=
  { hostname := "srv", addr := a, mapname := "mb2_dotf", clients := "3",
    mod := "mb2", gametype := "Open", ping := "Pinging...", passworded := false }

/-! Digits of `Nat.repr`: needed to show that a stringified latency can
never be the initial `'Pinging...'` status. -/

theorem toDigitsCore_head (fuel : ℕ) : ∀ (n : ℕ) (ds : List Char),
    Nat.toDigitsCore 10 fuel n ds = ds ∨
    ∃ k rest, k < 10 ∧ Nat.toDigitsCore 10 fuel n ds = Nat.digitChar k :: rest := by
  induction fuel with
  | zero => intro n ds; exact Or.inl rfl
  | succ fuel ih =>
    intro n ds
    have hstep : Nat.toDigitsCore 10 (fuel + 1) n ds =
        if n / 10 = 0 then Nat.digitChar (n % 10) :: ds
        else Nat.toDigitsCore 10 fuel (n / 10) (Nat.digitChar (n % 10) :: ds) := rfl
    rw [hstep]
    split
    · exact Or.inr ⟨n % 10, ds, Nat.mod_lt _ (by norm_num), rfl⟩
    · rcases ih (n / 10) (Nat.digitChar (n % 10) :: ds) with heq | ⟨k, rest, hk, heq⟩
      · exact Or.inr ⟨n % 10, ds, Nat.mod_lt _ (by norm_num), heq⟩
      · exact Or.inr ⟨k, rest, hk, heq⟩

theorem natRepr_data_head (n : ℕ) :
    (Nat.repr n).data = [] ∨
    ∃ k rest, k < 10 ∧ (Nat.repr n).data = Nat.digitChar k :: rest := by
  have h : (Nat.repr n).data = Nat.toDigitsCore 10 (n + 1) n [] := rfl
  rw [h]
  exact toDigitsCore_head (n + 1) n []

theorem int_toString_ne_pending (v : ℤ) : toString v ≠ "Pinging..." := by
  intro hcon
  have hdata := congrArg String.data hcon
  have hP : "Pinging...".data.head? = some 'P' := rfl
  cases v with
  | ofNat m =>
    have hm : (toString (Int.ofNat m)).data = (Nat.repr m).data := rfl
    rw [hm] at hdata
    rcases natRepr_data_head m with hnil | ⟨k, rest, hk, hhead⟩
    · rw [hnil] at hdata; exact absurd hdata (by decide)
    · rw [hhead] at hdata
      have hhd := congrArg List.head? hdata
      rw [List.head?_cons, hP] at hhd
      have hkP : Nat.digitChar k = 'P' := Option.some.inj hhd
      have hne : ∀ j, j < 10 → Nat.digitChar j ≠ 'P' := by decide
      exact hne k hk hkP
  | negSucc m =>
    have hm : (toString (Int.negSucc m)).data = '-' :: (Nat.repr (m + 1)).data := rfl
    rw [hm] at hdata
    have hhd := congrArg List.head? hdata
    rw [List.head?_cons, hP] at hhd
    exact absurd (Option.some.inj hhd) (by decide)

/-- A terminal ping status: one of the four named outcomes of the probe
phase, or a stringified latency that is not a sentinel. -/
def terminalPing (p : String) : Prop :=
  p = "Timeout" ∨ p = "Error" ∨ p = "Parse Error" ∨ p = "Invalid Addr" ∨
    ∃ v : ℤ, p = toString v ∧ v ≠ -1 ∧ v ≠ 999

/-- Claim C1: after the probe phase, every record carries a terminal ping
status — a stringified latency, `'Timeout'`, `'Error'`, `'Parse Error'`
or `'Invalid Addr'` — and none remains at the initial `'Pinging...'`
state; one output record is produced per input record, each assigned its
status exactly once by `settleRecord`. -/
theorem probe_phase_all_terminal (oracle : Server → TaskOutcome) (servers : List Server) :
    (probePhase oracle servers).length = servers.length ∧
    ∀ s ∈ probePhase oracle servers, terminalPing s.ping ∧ s.ping ≠ "Pinging..." := by
  refine ⟨by simp [probePhase], ?_⟩
  intro s hs
  simp only [probePhase, List.mem_map] at hs
  obtain ⟨s₀, -, rfl⟩ := hs
  cases hcl : classifyAddr s₀.addr.data with
  | parseErr =>
    have hping : (settleRecord oracle s₀).ping = "Parse Error" := by
      unfold settleRecord; rw [hcl]
    rw [hping]
    exact ⟨Or.inr (Or.inr (Or.inl rfl)), by decide⟩
  | invalidAddr =>
    have hping : (settleRecord oracle s₀).ping = "Invalid Addr" := by
      unfold settleRecord; rw [hcl]
    rw [hping]
    exact ⟨Or.inr (Or.inr (Or.inr (Or.inl rfl))), by decide⟩
  | dispatch ip p =>
    have hping : (settleRecord oracle s₀).ping = settlePing (oracle s₀) := by
      unfold settleRecord; rw [hcl]
    rw [hping]
    cases oracle s₀ with
    | exn => exact ⟨Or.inr (Or.inl rfl), by decide⟩
    | ok v =>
      show terminalPing (decodePing v) ∧ decodePing v ≠ "Pinging..."
      unfold decodePing
      split
      · exact ⟨Or.inr (Or.inl rfl), by decide⟩
      · split
        · exact ⟨Or.inl rfl, by decide⟩
        · rename_i hne1 hne999
          exact ⟨Or.inr (Or.inr (Or.inr (Or.inr ⟨v, rfl, hne1, hne999⟩))),
            int_toString_ne_pending v⟩

theorem probe_phase_all_terminal_witness :
    terminalPing (settleRecord (fun _ => TaskOutcome.ok 50) (sampleServer "1.2.3.4:29070")).ping ∧
    (settleRecord (fun _ => TaskOutcome.ok 50) (sampleServer "1.2.3.4:29070")).ping ≠ "Pinging..." :=
  (probe_phase_all_terminal (fun _ => TaskOutcome.ok 50) [sampleServer "1.2.3.4:29070"]).2
    _ (List.mem_singleton.mpr rfl)

/-- Claim C3 counterexample: the code enforces no port range.  The address
`1.2.3.4:70000` parses to port `70000 > 65535` yet is dispatched — a
socket call is made for it — rather than being rejected; and the address
`1.2.3.4:` (empty port string) is marked `'Parse Error'` by the
`int('')` failure, not `'Invalid Addr'` as an empty port would require
under the claim. -/
theorem port_range_not_enforced :
    (classifyAddr ("1.2.3.4:70000".data) = AddrKind.dispatch ("1.2.3.4".data) 70000 ∧
      ¬ ((70000 : ℤ) ≤ 65535) ∧
      sampleServer "1.2.3.4:70000" ∈ dispatchedRecords [sampleServer "1.2.3.4:70000"]) ∧
    classifyAddr ("1.2.3.4:".data) = AddrKind.parseErr := by
  refine ⟨⟨by decide, by decide, by decide⟩, by decide⟩

/-- Claim C3 (amended): each record's address is split at its last colon
into a host and a port parsed by `int()`; a record is dispatched exactly
when the address contains a colon, the port string parses as an integer,
the host is nonempty and the port is nonzero — with no range check, so
out-of-range and negative ports are still dispatched.  An unparseable
port (including the empty string) is marked `'Parse Error'` and excluded
from dispatch (no socket call); an address with no colon, an empty host
or a zero port is marked `'Invalid Addr'` and likewise excluded.  Every
such record is retained in the result set rather than dropped. -/
theorem address_classification (servers : List Server) (oracle : Server → TaskOutcome)
    (s : Server) (hmem : s ∈ servers) :
    (probePhase oracle servers).length = servers.length ∧
    (classifyAddr s.addr.data = .parseErr →
      s ∉ dispatchedRecords servers ∧
      { s with ping := "Parse Error" } ∈ probePhase oracle servers) ∧
    (classifyAddr s.addr.data = .invalidAddr →
      s ∉ dispatchedRecords servers ∧
      { s with ping := "Invalid Addr" } ∈ probePhase oracle servers) ∧
    (∀ ip p, classifyAddr s.addr.data = .dispatch ip p →
      s.addr.data.contains ':' = true ∧
      pyInt (rsplitColon s.addr.data).2 = some p ∧
      ip = (rsplitColon s.addr.data).1 ∧ ip ≠ [] ∧ p ≠ 0) := by
  refine ⟨by simp [probePhase], ?_, ?_, ?_⟩
  · intro hcl
    constructor
    · intro hdis
      rw [dispatchedRecords, List.mem_filter] at hdis
      rw [hcl] at hdis
      exact absurd hdis.2 (by decide)
    · rw [probePhase, List.mem_map]
      refine ⟨s, hmem, ?_⟩
      unfold settleRecord; rw [hcl]
  · intro hcl
    constructor
    · intro hdis
      rw [dispatchedRecords, List.mem_filter] at hdis
      rw [hcl] at hdis
      exact absurd hdis.2 (by decide)
    · rw [probePhase, List.mem_map]
      refine ⟨s, hmem, ?_⟩
      unfold settleRecord; rw [hcl]
  · intro ip p hcl
    unfold classifyAddr at hcl
    by_cases hcolon : s.addr.data.contains ':' = true
    · rw [if_pos hcolon] at hcl
      cases hpy : pyInt (rsplitColon s.addr.data).2 with
      | none => rw [hpy] at hcl; exact absurd hcl (by simp)
      | some p' =>
        rw [hpy] at hcl
        have hcl' : (if (rsplitColon s.addr.data).1 ≠ [] ∧ p' ≠ 0 then
            AddrKind.dispatch (rsplitColon s.addr.data).1 p'
            else AddrKind.invalidAddr) = AddrKind.dispatch ip p := hcl
        by_cases hcond : (rsplitColon s.addr.data).1 ≠ [] ∧ p' ≠ 0
        · rw [if_pos hcond] at hcl'
          obtain ⟨hip, hp⟩ := AddrKind.dispatch.inj hcl'.symm
          subst hip
          have hpp : p' = p := hp.symm
          subst hpp
          exact ⟨hcolon, rfl, rfl, hcond.1, hcond.2⟩
        · rw [if_neg hcond] at hcl'
          exact absurd hcl' (by simp)
    · rw [if_neg hcolon] at hcl
      exact absurd hcl (by simp)

theorem address_classification_witness :
    sampleServer "not-an-address" ∉ dispatchedRecords [sampleServer "not-an-address"] ∧
    { sampleServer "not-an-address" with ping := "Invalid Addr" }
      ∈ probePhase (fun _ => TaskOutcome.ok 1) [sampleServer "not-an-address"] :=
  (address_classification [sampleServer "not-an-address"] (fun _ => TaskOutcome.ok 1)
    (sampleServer "not-an-address") (List.mem_singleton.mpr rfl)).2.2.1 (by decide)

/-- Claim C4: an unexpected exception inside one record's probe task is
caught at the `future.result()` boundary and mapped to `'Error'` on that
record alone: every other record's settled state is unchanged (the per
record settling depends only on that record's own future), and the batch
still yields one settled record per input record. -/
theorem probe_fault_isolated (oracle oracle' : Server → TaskOutcome) (servers : List Server)
    (s₀ : Server) (hexn : oracle' s₀ = .exn)
    (hagree : ∀ s, s ≠ s₀ → oracle' s = oracle s) :
    (probePhase oracle' servers).length = servers.length ∧
    (∀ s, s ≠ s₀ → settleRecord oracle' s = settleRecord oracle s) ∧
    (isDispatched (classifyAddr s₀.addr.data) = true →
      settleRecord oracle' s₀ = { s₀ with ping := "Error" }) ∧
    probePhase oracle' servers = servers.map (settleRecord oracle') := by
  refine ⟨by simp [probePhase], ?_, ?_, rfl⟩
  · intro s hs
    unfold settleRecord
    rw [hagree s hs]
  · intro hdis
    cases hcl : classifyAddr s₀.addr.data with
    | parseErr => rw [hcl] at hdis; exact absurd hdis (by decide)
    | invalidAddr => rw [hcl] at hdis; exact absurd hdis (by decide)
    | dispatch ip p =>
      unfold settleRecord
      rw [hcl, hexn]
      rfl

theorem probe_fault_isolated_witness :
    settleRecord
        (fun s => if s = sampleServer "1.2.3.4:29070" then TaskOutcome.exn else TaskOutcome.ok 50)
        (sampleServer "1.2.3.4:29070")
      = { sampleServer "1.2.3.4:29070" with ping := "Error" } :=
  (probe_fault_isolated (fun _ => TaskOutcome.ok 50)
    (fun s => if s = sampleServer "1.2.3.4:29070" then TaskOutcome.exn else TaskOutcome.ok 50)
    [] (sampleServer "1.2.3.4:29070") (if_pos rfl) (fun _ hs => if_neg hs)).2.2.1 (by decide)

/-! ## Sanitization: `ServerBrowser._sanitize_string`

The source (`mbupdater.py:1317-1325`) lowercases, replaces `\xa0` and
` ` by spaces, strips every character outside `[a-z0-9 ]` with
`re.sub`, and normalizes whitespace with `' '.join(text.split())` plus a
final `strip()`.  `Char.toLower` models `str.lower` on the ASCII range
(the only range that survives the subsequent `re.sub`). -/

/-- Replacement of the HTML-entity artifacts `\xa0` (non-breaking space)
and ` ` (em space) by a plain space. -/
def deSpaceChar (c : Char) : Char :=
  if c == Char.ofNat 0xA0 || c == Char.ofNat 0x2003 then ' ' else c

/-- The keep-set of the regex `re.sub(r'[^a-z0-9 ]', '', text)`, stated
over code points: lowercase ASCII letters, ASCII digits, and the space. -/
def keepChar (c : Char) : Bool :=
  (97 ≤ c.toNat && c.toNat ≤ 122) || (48 ≤ c.toNat && c.toNat ≤ 57) || c.toNat == 32

/-- Accumulator pass of Python's `str.split()`: split on whitespace runs,
dropping empty fields. -/
def pyWordsAux : List Char → List Char → List (List Char)
  | [], acc => if acc.isEmpty then [] else [acc.reverse]
  | c :: cs, acc =>
    if isPyWs c then
      if acc.isEmpty then pyWordsAux cs [] else acc.reverse :: pyWordsAux cs []
    else pyWordsAux cs (c :: acc)

/-- Python's `str.split()` with no separator: the whitespace-delimited
words, empty fields dropped. -/
def pyWords (l : List Char) : List (List Char) := pyWordsAux l []

/-- Python's `' '.join(words)`. -/
def joinSp : List (List Char) → List Char
  | [] => []
  | [w] => w
  | w :: w' :: ws => w ++ ' ' :: joinSp (w' :: ws)

/-- Shallow embedding of `ServerBrowser._sanitize_string`
(`mbupdater.py:1317-1325`) on the character list of the input. -/
def sanitizeChars (l : List Char) : List Char :=
  pyStripWs (joinSp (pyWords ((l.map (fun c => deSpaceChar c.toLower)).filter keepChar)))

/-- Shallow embedding of `ServerBrowser._sanitize_string` on strings. -/
def _sanitize_string (s : String) : String := ⟨sanitizeChars s.data⟩

theorem pyWordsAux_good (l : List Char) : ∀ (acc : List Char),
    (∀ c ∈ acc, isPyWs c = false) →
    ∀ w ∈ pyWordsAux l acc, w ≠ [] ∧ ∀ c ∈ w, isPyWs c = false := by
  induction l with
  | nil =>
    intro acc hacc w hw
    unfold pyWordsAux at hw
    split at hw
    · exact absurd hw (List.not_mem_nil _)
    · rename_i hne
      rw [List.mem_singleton] at hw
      subst hw
      refine ⟨?_, ?_⟩
      · intro hcon
        have : acc = [] := by
          have := congrArg List.reverse hcon
          simpa using this
        rw [this] at hne
        exact hne rfl
      · intro c hc
        exact hacc c (List.mem_reverse.mp hc)
  | cons a as ih =>
    intro acc hacc w hw
    unfold pyWordsAux at hw
    split at hw
    · split at hw
      · exact ih [] (by intro c hc; exact absurd hc (List.not_mem_nil _)) w hw
      · rename_i hne
        rcases List.mem_cons.mp hw with hw | hw
        · subst hw
          refine ⟨?_, ?_⟩
          · intro hcon
            have : acc = [] := by
              have := congrArg List.reverse hcon
              simpa using this
            rw [this] at hne
            exact hne rfl
          · intro c hc
            exact hacc c (List.mem_reverse.mp hc)
        · exact ih [] (by intro c hc; exact absurd hc (List.not_mem_nil _)) w hw
    · rename_i hnws
      refine ih (a :: acc) ?_ w hw
      intro c hc
      rcases List.mem_cons.mp hc with hc | hc
      · subst hc; exact Bool.of_not_eq_true hnws
      · exact hacc c hc

theorem pyWordsAux_chars (l : List Char) : ∀ (acc : List Char),
    ∀ w ∈ pyWordsAux l acc, ∀ c ∈ w, c ∈ l ∨ c ∈ acc := by
  induction l with
  | nil =>
    intro acc w hw c hc
    unfold pyWordsAux at hw
    split at hw
    · exact absurd hw (List.not_mem_nil _)
    · rw [List.mem_singleton] at hw
      subst hw
      exact Or.inr (List.mem_reverse.mp hc)
  | cons a as ih =>
    intro acc w hw c hc
    unfold pyWordsAux at hw
    split at hw
    · split at hw
      · rcases ih [] w hw c hc with h | h
        · exact Or.inl (List.mem_cons_of_mem _ h)
        · exact absurd h (List.not_mem_nil _)
      · rcases List.mem_cons.mp hw with hw | hw
        · subst hw
          exact Or.inr (List.mem_reverse.mp hc)
        · rcases ih [] w hw c hc with h | h
          · exact Or.inl (List.mem_cons_of_mem _ h)
          · exact absurd h (List.not_mem_nil _)
    · rcases ih (a :: acc) w hw c hc with h | h
      · exact Or.inl (List.mem_cons_of_mem _ h)
      · rcases List.mem_cons.mp h with h | h
        · subst h; exact Or.inl (List.mem_cons_self _ _)
        · exact Or.inr h

theorem pyWordsAux_word_append (w : List Char) : ∀ (l acc : List Char),
    (∀ c ∈ w, isPyWs c = false) →
    pyWordsAux (w ++ l) acc = pyWordsAux l (w.reverse ++ acc) := by
  induction w with
  | nil => intro l acc _; simp
  | cons a as ih =>
    intro l acc hw
    have ha : isPyWs a = false := hw a (List.mem_cons_self _ _)
    show pyWordsAux (a :: (as ++ l)) acc = pyWordsAux l ((a :: as).reverse ++ acc)
    have hstep : pyWordsAux (a :: (as ++ l)) acc = pyWordsAux (as ++ l) (a :: acc) := by
      rw [pyWordsAux]
      rw [if_neg (by rw [ha]; exact Bool.false_ne_true)]
    rw [hstep, ih l (a :: acc) (fun c hc => hw c (List.mem_cons_of_mem _ hc))]
    have hacc : (a :: as).reverse ++ acc = as.reverse ++ a :: acc := by simp
    rw [hacc]

theorem joinSp_ne_nil (w : List Char) (ws : List (List Char)) (hw : w ≠ []) :
    joinSp (w :: ws) ≠ [] := by
  cases ws with
  | nil => exact hw
  | cons w' ws' =>
    show w ++ ' ' :: joinSp (w' :: ws') ≠ []
    simp

theorem pyWords_joinSp (ws : List (List Char))
    (hws : ∀ w ∈ ws, w ≠ [] ∧ ∀ c ∈ w, isPyWs c = false) :
    pyWords (joinSp ws) = ws := by
  induction ws with
  | nil => rfl
  | cons w ws' ih =>
    obtain ⟨hwne, hwnws⟩ := hws w (List.mem_cons_self _ _)
    cases ws' with
    | nil =>
      show pyWordsAux (joinSp [w]) [] = [w]
      have hj : joinSp [w] = w ++ [] := by simp [joinSp]
      rw [hj, pyWordsAux_word_append w [] [] hwnws]
      unfold pyWordsAux
      rw [if_neg (by simpa using hwne)]
      simp
    | cons w' ws'' =>
      show pyWordsAux (joinSp (w :: w' :: ws'')) [] = w :: w' :: ws''
      have hj : joinSp (w :: w' :: ws'') = w ++ ' ' :: joinSp (w' :: ws'') := rfl
      rw [hj, pyWordsAux_word_append w _ [] hwnws]
      show pyWordsAux (' ' :: joinSp (w' :: ws'')) (w.reverse ++ []) = w :: w' :: ws''
      unfold pyWordsAux
      rw [if_pos (by decide)]
      rw [if_neg (by simpa using hwne)]
      rw [List.append_nil, List.reverse_reverse]
      have := ih (fun v hv => hws v (List.mem_cons_of_mem _ hv))
      rw [show pyWordsAux (joinSp (w' :: ws'')) [] = pyWords (joinSp (w' :: ws'')) from rfl, this]

theorem dropWhile_eq_self_of_head (p : Char → Bool) (l : List Char)
    (h : ∀ c, l.head? = some c → p c = false) : l.dropWhile p = l := by
  cases l with
  | nil => rfl
  | cons a as =>
    rw [List.dropWhile_cons, if_neg]
    rw [h a rfl]
    exact Bool.false_ne_true

theorem joinSp_head (w : List Char) (ws : List (List Char)) (hw : w ≠ []) :
    (joinSp (w :: ws)).head? = w.head? := by
  cases ws with
  | nil => rfl
  | cons w' ws' =>
    show (w ++ ' ' :: joinSp (w' :: ws')).head? = w.head?
    cases w with
    | nil => exact absurd rfl hw
    | cons a as => rfl

theorem joinSp_getLast (ws : List (List Char))
    (hws : ∀ w ∈ ws, w ≠ [] ∧ ∀ c ∈ w, isPyWs c = false) :
    ∀ c, (joinSp ws).getLast? = some c → isPyWs c = false := by
  induction ws with
  | nil => intro c hc; exact absurd hc (by simp [joinSp])
  | cons w ws' ih =>
    intro c hc
    obtain ⟨hwne, hwnws⟩ := hws w (List.mem_cons_self _ _)
    cases ws' with
    | nil =>
      have hj : joinSp [w] = w := rfl
      rw [hj] at hc
      exact hwnws c (List.mem_of_getLast?_eq_some hc)
    | cons w' ws'' =>
      have hj : joinSp (w :: w' :: ws'') = w ++ ' ' :: joinSp (w' :: ws'') := rfl
      rw [hj, List.getLast?_append] at hc
      have hne : joinSp (w' :: ws'') ≠ [] :=
        joinSp_ne_nil w' ws'' (hws w' (List.mem_cons_of_mem _ (List.mem_cons_self _ _))).1
      cases hjs : joinSp (w' :: ws'') with
      | nil => exact absurd hjs hne
      | cons b bs =>
        rw [hjs, List.getLast?_cons_cons] at hc
        have hgl : (b :: bs).getLast? = some ((b :: bs).getLast (by simp)) :=
          List.getLast?_eq_getLast _ (by simp)
        rw [hgl, Option.or_some] at hc
        have hdc := Option.some.inj hc
        refine ih (fun v hv => hws v (List.mem_cons_of_mem _ hv)) c ?_
        rw [hjs, hgl]
        exact congrArg some hdc

theorem pyStripWs_joinSp (ws : List (List Char))
    (hws : ∀ w ∈ ws, w ≠ [] ∧ ∀ c ∈ w, isPyWs c = false) :
    pyStripWs (joinSp ws) = joinSp ws := by
  cases ws with
  | nil => rfl
  | cons w ws' =>
    obtain ⟨hwne, hwnws⟩ := hws w (List.mem_cons_self _ _)
    unfold pyStripWs
    have h1 : (joinSp (w :: ws')).dropWhile isPyWs = joinSp (w :: ws') := by
      apply dropWhile_eq_self_of_head
      intro c hc
      rw [joinSp_head w ws' hwne] at hc
      cases w with
      | nil => exact absurd rfl hwne
      | cons a as =>
        have : a = c := by simpa using hc
        subst this
        exact hwnws a (List.mem_cons_self _ _)
    rw [h1]
    have h2 : (joinSp (w :: ws')).reverse.dropWhile isPyWs = (joinSp (w :: ws')).reverse := by
      apply dropWhile_eq_self_of_head
      intro c hc
      rw [List.head?_reverse] at hc
      exact joinSp_getLast (w :: ws') hws c hc
    rw [h2, List.reverse_reverse]

theorem keepChar_fixed {c : Char} (h : keepChar c = true) :
    deSpaceChar c.toLower = c := by
  have hn : (97 ≤ c.toNat ∧ c.toNat ≤ 122) ∨ (48 ≤ c.toNat ∧ c.toNat ≤ 57) ∨ c.toNat = 32 := by
    have hn0 : ((97 ≤ c.toNat ∧ c.toNat ≤ 122) ∨ (48 ≤ c.toNat ∧ c.toNat ≤ 57)) ∨ c.toNat = 32 := by
      simpa [keepChar, Bool.or_eq_true, Bool.and_eq_true, decide_eq_true_eq] using h
    tauto
  have hlower : c.toLower = c := by
    show (if c.toNat ≥ 65 ∧ c.toNat ≤ 90 then Char.ofNat (c.toNat + 32) else c) = c
    rw [if_neg (by omega)]
  have hnb : ¬ ((c == Char.ofNat 0xA0 || c == Char.ofNat 0x2003) = true) := by
    intro hcon
    rcases Bool.or_eq_true_iff.mp hcon with hx | hx
    · have hce : c = Char.ofNat 0xA0 := beq_iff_eq.mp hx
      have h160 : c.toNat = 160 := by rw [hce]; decide
      omega
    · have hce : c = Char.ofNat 0x2003 := beq_iff_eq.mp hx
      have h8195 : c.toNat = 8195 := by rw [hce]; decide
      omega
  rw [hlower]
  unfold deSpaceChar
  rw [if_neg hnb]

theorem mem_pyStripWs (l : List Char) (c : Char) (hc : c ∈ pyStripWs l) : c ∈ l := by
  unfold pyStripWs at hc
  rw [List.mem_reverse] at hc
  have h1 := List.Sublist.mem hc (List.dropWhile_sublist _)
  rw [List.mem_reverse] at h1
  exact List.Sublist.mem h1 (List.dropWhile_sublist _)

theorem mem_joinSp (ws : List (List Char)) (c : Char) (hc : c ∈ joinSp ws) :
    c = ' ' ∨ ∃ w ∈ ws, c ∈ w := by
  induction ws with
  | nil => exact absurd hc (List.not_mem_nil _)
  | cons w ws' ih =>
    cases ws' with
    | nil => exact Or.inr ⟨w, List.mem_cons_self _ _, hc⟩
    | cons w' ws'' =>
      have hj : joinSp (w :: w' :: ws'') = w ++ ' ' :: joinSp (w' :: ws'') := rfl
      rw [hj, List.mem_append] at hc
      rcases hc with hc | hc
      · exact Or.inr ⟨w, List.mem_cons_self _ _, hc⟩
      · rcases List.mem_cons.mp hc with hc | hc
        · exact Or.inl hc
        · rcases ih hc with h | ⟨v, hv, hcv⟩
          · exact Or.inl h
          · exact Or.inr ⟨v, List.mem_cons_of_mem _ hv, hcv⟩

theorem sanitizeChars_keep (l : List Char) : ∀ c ∈ sanitizeChars l, keepChar c = true := by
  intro c hc
  unfold sanitizeChars at hc
  have hc1 : c ∈ joinSp (pyWords ((l.map fun c => deSpaceChar c.toLower).filter keepChar)) :=
    mem_pyStripWs _ _ hc
  rcases mem_joinSp _ _ hc1 with hsp | ⟨w, hw, hcw⟩
  · subst hsp; decide
  · rcases pyWordsAux_chars _ [] w hw c hcw with hmem | hmem
    · exact (List.mem_filter.mp hmem).2
    · exact absurd hmem (List.not_mem_nil _)

theorem map_id_of_fixed {α : Type} {l : List α} {f : α → α} (h : ∀ c ∈ l, f c = c) :
    l.map f = l := by
  induction l with
  | nil => rfl
  | cons a as ih =>
    rw [List.map_cons, h a (List.mem_cons_self _ _),
      ih (fun c hc => h c (List.mem_cons_of_mem _ hc))]

theorem sanitizeChars_idempotent (l : List Char) :
    sanitizeChars (sanitizeChars l) = sanitizeChars l := by
  have hgood : ∀ w ∈ pyWords ((l.map fun c => deSpaceChar c.toLower).filter keepChar),
      w ≠ [] ∧ ∀ c ∈ w, isPyWs c = false :=
    pyWordsAux_good _ [] (fun c hc => absurd hc (List.not_mem_nil _))
  have hy : sanitizeChars l
      = joinSp (pyWords ((l.map fun c => deSpaceChar c.toLower).filter keepChar)) := by
    unfold sanitizeChars
    exact pyStripWs_joinSp _ hgood
  have hkeep : ∀ c ∈ sanitizeChars l, keepChar c = true := sanitizeChars_keep l
  have hmap : (sanitizeChars l).map (fun c => deSpaceChar c.toLower) = sanitizeChars l :=
    map_id_of_fixed (fun c hc => keepChar_fixed (hkeep c hc))
  have hfilter : (sanitizeChars l).filter keepChar = sanitizeChars l :=
    List.filter_eq_self.mpr hkeep
  have hwords : pyWords (sanitizeChars l)
      = pyWords ((l.map fun c => deSpaceChar c.toLower).filter keepChar) := by
    rw [hy]
    exact pyWords_joinSp _ hgood
  show pyStripWs (joinSp (pyWords
      (((sanitizeChars l).map fun c => deSpaceChar c.toLower).filter keepChar)))
    = sanitizeChars l
  rw [hmap, hfilter, hwords, pyStripWs_joinSp _ hgood]
  exact hy.symm

/-- Claim C7: the sanitization of `ServerBrowser._sanitize_string` —
lowercase, replace non-breaking and em spaces, strip every character
outside `[a-z0-9 ]`, and collapse whitespace — is idempotent: sanitizing
an already-sanitized string of any shape (HTML-entity artifacts, mixed
case, punctuation included) changes nothing. -/
theorem sanitize_idempotent (x : String) :
    _sanitize_string (_sanitize_string x) = _sanitize_string x :=
  congrArg String.mk (sanitizeChars_idempotent x.data)

/-! ## Mod filtering: `ServerBrowser.display_servers`

The source (`mbupdater.py:1778-1797`) looks up the alias list of the
selected mod in `mod_name_map` (`mbupdater.py:1256-1267`), special-cases
the `'All Mods'` selector to return everything, and otherwise keeps a
record when some nonempty sanitized alias occurs as a substring of the
record's sanitized mod field. -/

/-- Does `needle` occur at the start of the second list? -/
def leadsList : List Char → List Char → Bool
  | [], _ => true
  | _ :: _, [] => false
  | a :: as, b :: bs => a == b && leadsList as bs

/-- Python's substring test `needle in hay` on character lists. -/
def occursIn (needle : List Char) : List Char → Bool
  | [] => needle.isEmpty
  | c :: cs => leadsList needle (c :: cs) || occursIn needle cs

/-- The alias table `self.mod_name_map` (`mbupdater.py:1256-1267`);
a missing key yields `[]` as `dict.get(key, [])` does. -/
def mod_name_map (k : String) : List String :=
  if k = "Movie Battles II" then
    ["movie battles", "moviebattles", "Movie Battles", "mb2", "mbii"]
  else if k = "basejk" then ["basejk", "basejka", "base"]
  else if k = "OpenJK" then ["openjk", "ojk"]
  else if k = "All Mods" then [""]
  else []

/-- The per-record filter test of `display_servers`: some alias of the
selected mod sanitizes to a nonempty string occurring inside the record's
sanitized mod field. -/
def serverMatchesMod (modFilter : String) (s : Server) : Bool :=
  (mod_name_map modFilter).any (fun a =>
    !(_sanitize_string a).data.isEmpty &&
      occursIn (_sanitize_string a).data (_sanitize_string s.mod).data)

/-- The filtering step of `display_servers` (`mbupdater.py:1781-1797`):
`'All Mods'` returns every record, otherwise records pass the alias
substring test. -/
def display_filter (modFilter : String) (servers : List Server) : List Server :=
  if modFilter = "All Mods" then servers
  else servers.filter (serverMatchesMod modFilter)

/-- A scraped record with the given mod field. -/
def modServer (m : String) : Server :=
  { sampleServer "1.2.3.4:29070" with mod := m }

/-- Claim C6: the `'All Mods'` selector returns every record unfiltered;
filtering by a mod keeps exactly the records whose sanitized mod field
contains some sanitized nonempty alias of that mod; in particular
filtering by `'Movie Battles II'` over mod fields `'Movie Battles II'`,
`'mb2'`, `'OpenJK'`, `'basejk'` returns exactly the first two. -/
theorem mod_filter_correct :
    (∀ servers : List Server, display_filter "All Mods" servers = servers) ∧
    display_filter "Movie Battles II"
        [modServer "Movie Battles II", modServer "mb2", modServer "OpenJK", modServer "basejk"]
      = [modServer "Movie Battles II", modServer "mb2"] ∧
    (∀ (m : String) (servers : List Server) (s : Server), m ≠ "All Mods" →
      (s ∈ display_filter m servers ↔ s ∈ servers ∧ serverMatchesMod m s = true)) := by
  refine ⟨?_, by decide, ?_⟩
  · intro servers
    unfold display_filter
    rw [if_pos rfl]
  · intro m servers s hm
    unfold display_filter
    rw [if_neg hm, List.mem_filter]

theorem mod_filter_correct_witness :
    modServer "mb2" ∈ display_filter "Movie Battles II" [modServer "mb2"] ↔
      modServer "mb2" ∈ [modServer "mb2"] ∧
        serverMatchesMod "Movie Battles II" (modServer "mb2") = true :=
  mod_filter_correct.2.2 "Movie Battles II" [modServer "mb2"] (modServer "mb2") (by decide)

/-! ## Column sorting: `ServerBrowser.sort_column`

The source (`mbupdater.py:1327-1349`) sorts the displayed rows.  For the
numeric columns `'Ping'` and `'Players'` the key of a cell value is
`int(''.join(filter(str.isdigit, value)) or sys.maxsize)` — the number
formed by concatenating every digit character of the value, with
`sys.maxsize` when the value has no digits; other columns sort by the
lowercased value.  Python's `list.sort` is stable; we embed it as a
stable insertion sort, which computes the same list. -/

/-- Python's `sys.maxsize` on a 64-bit build. -/
def sysMaxsize : ℕ := 2 ^ 63 - 1

/-- The numeric-column sort key of `sort_column`: concatenate every digit
character of the value and read the result as a number, or `sys.maxsize`
when there is none (`str.isdigit` modelled on the ASCII range). -/
def pingSortKey (v : String) : ℕ :=
  let ds := v.data.filter isAsciiDigit
  if ds.isEmpty then sysMaxsize else natOfDigits ds

/-- Python's `str.lower`, on the ASCII range. -/
def lowerString (s : String) : String := ⟨s.data.map Char.toLower⟩

/-- Stable insertion into a sorted list: `x` goes in front of the first
element it may precede. -/
def sInsert {α : Type} (le : α → α → Bool) (x : α) : List α → List α
  | [] => [x]
  | y :: ys => if le x y then x :: y :: ys else y :: sInsert le x ys

/-- Stable insertion sort; extensionally equal to Python's stable
`list.sort` for any key-induced total preorder. -/
def sSort {α : Type} (le : α → α → Bool) : List α → List α
  | [] => []
  | x :: xs => sInsert le x (sSort le xs)

/-- Key comparison used when inserting `a` before `b`. -/
def keyLe {α : Type} (key : α → ℕ) (a b : α) : Bool := decide (key a ≤ key b)

/-- The numeric branch comparison of `sort_column` with its `reverse`
flag (Python's stable sort with `reverse=True` keeps ties in input
order, so descending insertion compares the flipped keys). -/
def numericSortLe : Bool → String → String → Bool
  | true => fun a b => decide (pingSortKey b ≤ pingSortKey a)
  | false => fun a b => decide (pingSortKey a ≤ pingSortKey b)

/-- The lexicographic branch comparison of `sort_column` on lowercased
values. -/
def lexSortLe : Bool → String → String → Bool
  | true => fun a b => decide (lowerString b ≤ lowerString a)
  | false => fun a b => decide (lowerString a ≤ lowerString b)

/-- Shallow embedding of `ServerBrowser.sort_column`
(`mbupdater.py:1327-1345`) on the list of displayed cell values of the
clicked column. -/
def sort_column (col : String) (reverse : Bool) (values : List String) : List String :=
  if col = "Ping" ∨ col = "Players" then sSort (numericSortLe reverse) values
  else sSort (lexSortLe reverse) values

/-- Modelled from the spec: the sort key the specification describes for
numeric columns — the leading digit run of the stringified value,
`sys.maxsize` when absent — which is what the claim asserts the code
uses. -/
def pingSortKeyLeading (v : String) : ℕ :=
  let ds := v.data.takeWhile isAsciiDigit
  if ds.isEmpty then sysMaxsize else natOfDigits ds

/-- Modelled from the spec: numeric-column sorting as the specification
words it, keyed by the leading digit run. -/
def sort_column_leading (reverse : Bool) (values : List String) : List String :=
  sSort (fun a b =>
    if reverse then decide (pingSortKeyLeading b ≤ pingSortKeyLeading a)
    else decide (pingSortKeyLeading a ≤ pingSortKeyLeading b)) values

/-- Claim C5 counterexample: the code's key is the concatenation of all
digit characters, not the leading digit run: `'1/20'` gets key `120`, so
an ascending sort of the Players column puts `'3'` (key `3`) before
`'1/20'`, while the leading-run key of the claim (`1` for `'1/20'`)
would put `'1/20'` first. -/
theorem sort_key_not_leading_run :
    sort_column "Players" false ["1/20", "3"] = ["3", "1/20"] ∧
    sort_column_leading false ["1/20", "3"] = ["1/20", "3"] ∧
    pingSortKey "1/20" = 120 ∧ pingSortKeyLeading "1/20" = 1 := by
  refine ⟨by decide, by decide, by decide, by decide⟩

theorem sInsert_perm {α : Type} (le : α → α → Bool) (x : α) (l : List α) :
    (sInsert le x l).Perm (x :: l) := by
  induction l with
  | nil => exact List.Perm.refl _
  | cons y ys ih =>
    show (if le x y then x :: y :: ys else y :: sInsert le x ys).Perm (x :: y :: ys)
    split
    · exact List.Perm.refl _
    · exact (List.Perm.cons y ih).trans (List.Perm.swap x y ys)

theorem sSort_perm {α : Type} (le : α → α → Bool) (l : List α) : (sSort le l).Perm l := by
  induction l with
  | nil => exact List.Perm.refl _
  | cons x xs ih =>
    show (sInsert le x (sSort le xs)).Perm (x :: xs)
    exact (sInsert_perm le x (sSort le xs)).trans (List.Perm.cons x ih)

theorem sInsert_pairwise {α : Type} (key : α → ℕ) (x : α) (l : List α)
    (hl : List.Pairwise (fun a b => key a ≤ key b) l) :
    List.Pairwise (fun a b => key a ≤ key b) (sInsert (keyLe key) x l) := by
  induction l with
  | nil => exact List.pairwise_singleton _ _
  | cons y ys ih =>
    rw [List.pairwise_cons] at hl
    obtain ⟨hy, hys⟩ := hl
    show List.Pairwise _ (if keyLe key x y then x :: y :: ys else y :: sInsert (keyLe key) x ys)
    split
    · rename_i hxy
      have hxy' : key x ≤ key y := of_decide_eq_true hxy
      rw [List.pairwise_cons]
      refine ⟨?_, List.pairwise_cons.mpr ⟨hy, hys⟩⟩
      intro b hb
      rcases List.mem_cons.mp hb with hb | hb
      · subst hb; exact hxy'
      · exact le_trans hxy' (hy b hb)
    · rename_i hxy
      have hnot : ¬ (key x ≤ key y) := fun hcon => hxy (decide_eq_true hcon)
      rw [List.pairwise_cons]
      refine ⟨?_, ih hys⟩
      intro b hb
      have hb' : b ∈ x :: ys := (sInsert_perm (keyLe key) x ys).mem_iff.mp hb
      rcases List.mem_cons.mp hb' with hb' | hb'
      · subst hb'; omega
      · exact hy b hb'

theorem sSort_pairwise {α : Type} (key : α → ℕ) (l : List α) :
    List.Pairwise (fun a b => key a ≤ key b) (sSort (keyLe key) l) := by
  induction l with
  | nil => exact List.Pairwise.nil
  | cons x xs ih =>
    show List.Pairwise _ (sInsert (keyLe key) x (sSort (keyLe key) xs))
    exact sInsert_pairwise key x _ ih

theorem sInsert_filter_key {α : Type} (key : α → ℕ) (x : α) (l : List α) (k : ℕ) :
    (sInsert (keyLe key) x l).filter (fun a => decide (key a = k))
      = if key x = k then x :: l.filter (fun a => decide (key a = k))
        else l.filter (fun a => decide (key a = k)) := by
  induction l with
  | nil =>
    by_cases hx : key x = k
    · simp [sInsert, hx]
    · simp [sInsert, hx]
  | cons y ys ih =>
    show (if keyLe key x y then x :: y :: ys
          else y :: sInsert (keyLe key) x ys).filter (fun a => decide (key a = k)) = _
    by_cases hxy : keyLe key x y = true
    · rw [if_pos hxy]
      by_cases hx : key x = k
      · simp [List.filter_cons, hx]
      · simp [List.filter_cons, hx]
    · rw [if_neg hxy]
      have hnot : ¬ (key x ≤ key y) := fun hcon => hxy (decide_eq_true hcon)
      by_cases hx : key x = k
      · have hyk : ¬ (key y = k) := by omega
        simp [List.filter_cons, ih, hx, hyk]
      · simp only [List.filter_cons, ih, if_neg hx]

theorem sSort_filter_key {α : Type} (key : α → ℕ) (l : List α) (k : ℕ) :
    (sSort (keyLe key) l).filter (fun a => decide (key a = k))
      = l.filter (fun a => decide (key a = k)) := by
  induction l with
  | nil => rfl
  | cons x xs ih =>
    show (sInsert (keyLe key) x (sSort (keyLe key) xs)).filter (fun a => decide (key a = k)) = _
    rw [sInsert_filter_key, ih]
    by_cases hx : key x = k
    · rw [if_pos hx, List.filter_cons, if_pos (decide_eq_true hx)]
    · rw [if_neg hx, List.filter_cons, if_neg (fun hcon => hx (of_decide_eq_true hcon))]

/-- Claim C5 (amended): for the numeric columns the sort key is the
number formed by concatenating every digit character of the stringified
cell value (not just the leading run), with absent digits mapped to
`sys.maxsize` so the non-numeric statuses `'Timeout'`, `'Error'` and
`'N/A'` sort to the end ascending; the sort is stable — values with equal
keys keep their prior relative order — and sorting
`["45", "Timeout", "12", "Error"]` ascending yields
`["12", "45", "Timeout", "Error"]`. -/
theorem sort_column_numeric_stable (values : List String) :
    (sort_column "Ping" false values).Perm values ∧
    List.Pairwise (fun a b => pingSortKey a ≤ pingSortKey b) (sort_column "Ping" false values) ∧
    (∀ k : ℕ, (sort_column "Ping" false values).filter (fun v => decide (pingSortKey v = k))
      = values.filter (fun v => decide (pingSortKey v = k))) ∧
    pingSortKey "Timeout" = sysMaxsize ∧
    pingSortKey "Error" = sysMaxsize ∧
    pingSortKey "N/A" = sysMaxsize ∧
    sort_column "Ping" false ["45", "Timeout", "12", "Error"]
      = ["12", "45", "Timeout", "Error"] := by
  have hcol : sort_column "Ping" false values = sSort (keyLe pingSortKey) values := by
    unfold sort_column
    rw [if_pos (Or.inl rfl)]
    rfl
  refine ⟨?_, ?_, ?_, by decide, by decide, by decide, by decide⟩
  · rw [hcol]; exact sSort_perm _ _
  · rw [hcol]; exact sSort_pairwise _ _
  · intro k; rw [hcol]; exact sSort_filter_key _ _ _

/-! ## Bounded concurrency: the ping thread pool

`_fetch_servers_thread` (`mbupdater.py:1678-1712`) sets
`MAX_PING_THREADS = 20`, submits one `ping_server` task per
validly-addressed record to a `ThreadPoolExecutor` with that many
workers, and collects every submitted future with
`concurrent.futures.as_completed` before leaving the `with` block.  The
executor is modelled by its documented semantics: queued tasks start only
while fewer than `max_workers` run; running tasks finish in any order. -/

/-- The concurrency cap `MAX_PING_THREADS = 20` (`mbupdater.py:1678`). -/
def MAX_PING_THREADS : ℕ := 20

/-- A snapshot of the thread pool: tasks still queued, tasks running on a
worker, and tasks whose future has resolved. -/
structure PoolState where
  pending : List Server
  running : List Server
  done : List Server

/-- One scheduling step of a `ThreadPoolExecutor` with `cap` workers: the
head queued task starts when a worker is free, or any running task
finishes and its future resolves. -/
inductive poolStep (cap : ℕ) : PoolState → PoolState → Prop
  | start (s : Server) (p r d : List Server) :
      r.length < cap → poolStep cap ⟨s :: p, r, d⟩ ⟨p, s :: r, d⟩
  | finish (s : Server) (p r₁ r₂ d : List Server) :
      poolStep cap ⟨p, r₁ ++ s :: r₂, d⟩ ⟨p, r₁ ++ r₂, s :: d⟩

/-- Reachability of pool states by scheduling steps. -/
def poolReaches (cap : ℕ) : PoolState → PoolState → Prop :=
  Relation.ReflTransGen (poolStep cap)

/-- The pool state right after the submission loop: every
validly-addressed record's probe queued, nothing running or resolved. -/
def initPool (servers : List Server) : PoolState :=
  ⟨dispatchedRecords servers, [], []⟩

theorem pool_invariant (cap : ℕ) (tasks : List Server) (st : PoolState)
    (h : poolReaches cap ⟨tasks, [], []⟩ st) :
    st.running.length ≤ cap ∧ (st.pending ++ st.running ++ st.done).Perm tasks := by
  induction h with
  | refl => exact ⟨Nat.zero_le _, by simp⟩
  | tail hsteps hstep ih =>
    obtain ⟨ihlen, ihperm⟩ := ih
    cases hstep with
    | start s p r d hcap =>
      refine ⟨by simpa using hcap, ?_⟩
      refine List.Perm.trans ?_ ihperm
      show (p ++ (s :: r) ++ d).Perm ((s :: p) ++ r ++ d)
      have hmid : (p ++ s :: (r ++ d)).Perm (s :: (p ++ (r ++ d))) := List.perm_middle
      simp only [List.append_assoc, List.cons_append]
      exact hmid
    | finish s p r₁ r₂ d =>
      constructor
      · have hlen : (r₁ ++ s :: r₂).length ≤ cap := ihlen
        simp only [List.length_append, List.length_cons] at hlen ⊢
        omega
      · refine List.Perm.trans ?_ ihperm
        show (p ++ (r₁ ++ r₂) ++ (s :: d)).Perm (p ++ (r₁ ++ s :: r₂) ++ d)
        have hmid : (r₂ ++ s :: d).Perm (s :: (r₂ ++ d)) := List.perm_middle
        have h2 := List.Perm.append_left r₁ hmid
        have h3 := List.Perm.append_left p (by simpa using h2 :
          ((r₁ ++ r₂) ++ s :: d).Perm ((r₁ ++ s :: r₂) ++ d))
        simpa using h3

/-- Claim C9: the probes of all validly-addressed records are dispatched
to a pool capped at `MAX_PING_THREADS = 20`: in every reachable pool
state at most 20 probes are simultaneously in flight, the queued, running
and resolved tasks together remain exactly the dispatched records, and
the collection loop is complete — no task left queued or running — only
when every dispatched probe has resolved. -/
theorem bounded_pool (servers : List Server) (st : PoolState)
    (h : poolReaches MAX_PING_THREADS (initPool servers) st) :
    MAX_PING_THREADS = 20 ∧
    st.running.length ≤ MAX_PING_THREADS ∧
    (st.pending ++ st.running ++ st.done).Perm (dispatchedRecords servers) ∧
    (st.pending = [] → st.running = [] → st.done.Perm (dispatchedRecords servers)) := by
  obtain ⟨hlen, hperm⟩ := pool_invariant MAX_PING_THREADS (dispatchedRecords servers) st h
  refine ⟨rfl, hlen, hperm, ?_⟩
  intro hp hr
  rw [hp, hr] at hperm
  simpa using hperm

theorem bounded_pool_witness :
    MAX_PING_THREADS = 20 ∧
      (initPool [sampleServer "1.2.3.4:29070"]).running.length ≤ MAX_PING_THREADS :=
  ⟨(bounded_pool [sampleServer "1.2.3.4:29070"] _ Relation.ReflTransGen.refl).1,
   (bounded_pool [sampleServer "1.2.3.4:29070"] _ Relation.ReflTransGen.refl).2.1⟩
